import Mathlib

/-!
Verification of the egobot text-filtering, chunking and retry/backoff core
(`internal/ai/extractor.go`, `internal/processor`).

Go strings are modelled as lists of characters (`Str`).  Case mapping is
modelled on the ASCII and Latin-1 letter ranges, which covers the Danish
vocabulary used by the program; Go applies full Unicode simple case folding,
and byte lengths of non-ASCII strings are approximated by character counts.
All definitions are direct translations of the Go source.
-/

namespace Egobot

open List

/-- A Go string, modelled as a list of characters. -/
abbrev Str := List Char

/-- Conversion from Lean string literals to the model type. -/
def str (s : String) : Str := s.toList

/-- Lower-casing of one character, on the ASCII range and the Latin-1
letter range (covers `æ ø å` used in the Danish keyword list).  Models
`strings.ToLower` character-wise. -/
def lowerChar (c : Char) : Char :=
  if ('A' ≤ c ∧ c ≤ 'Z') ∨ (0xC0 ≤ c.toNat ∧ c.toNat ≤ 0xDE ∧ c.toNat ≠ 0xD7) then
    Char.ofNat (c.toNat + 32)
  else c

/-- Models `strings.ToLower`. -/
def goToLower (l : Str) : Str := l.map lowerChar

/-- Models `strings.ReplaceAll(s, string(ch), "")`: removal of every
occurrence of the single character `ch`. -/
def removeChar (ch : Char) (l : Str) : Str := l.filter (fun c => c != ch)

/-- Index of the leftmost occurrence of `pat` in `l`, models
`strings.Index` (with character positions in place of byte offsets). -/
def indexOfSubstr (l pat : Str) : Option Nat :=
  match l with
  | [] => if pat = [] then some 0 else none
  | c :: rest =>
    if pat.isPrefixOf (c :: rest) then some 0
    else (indexOfSubstr rest pat).map (· + 1)

/-- Models `strings.Contains`. -/
def containsB (l pat : Str) : Bool := (indexOfSubstr l pat).isSome

/-- Whitespace as recognised by `strings.TrimSpace` / `strings.Fields`
(ASCII portion of Unicode white space). -/
def goIsSpace (c : Char) : Bool :=
  c = ' ' || c = '\t' || c = '\n' || c = '\r' || c = '\x0b' || c = '\x0c'

/-- Auxiliary for `goFields`: `cur` holds the reversed current token. -/
def fieldsAux (cur : Str) : Str → List Str
  | [] => if cur = [] then [] else [cur.reverse]
  | c :: rest =>
    if goIsSpace c then
      if cur = [] then fieldsAux [] rest else cur.reverse :: fieldsAux [] rest
    else fieldsAux (c :: cur) rest

/-- Models `strings.Fields`: split around runs of whitespace. -/
def goFields (l : Str) : List Str := fieldsAux [] l

/-- Models `strings.TrimSpace` on the left end. -/
def trimLeft (l : Str) : Str := l.dropWhile goIsSpace

/-- Models `strings.TrimSpace` on the right end. -/
def trimRight (l : Str) : Str := (l.reverse.dropWhile goIsSpace).reverse

/-- Models `strings.TrimSpace`. -/
def trimSpace (l : Str) : Str := trimLeft (trimRight l)

/-- Models `findEntityInText` from `internal/ai/extractor.go`: four matching
strategies tried in order, the first success wins. -/
def findEntityInText (text entity : Str) : Bool :=
  let normalizedText := goToLower (removeChar ' ' text)
  let normalizedEntity := goToLower (removeChar ' ' entity)
  -- Strategy 1: direct substring match on space-stripped lower-cased forms
  if containsB normalizedText normalizedEntity then true
  else
    -- Strategy 2: every whitespace-separated part of the entity appears
    let entityParts := goFields entity
    if entityParts.length > 1 &&
        entityParts.all (fun p => containsB (goToLower text) (goToLower p)) then true
    else
      -- Strategy 3: strip spaces, hyphens and periods from both sides
      let cleanText := removeChar '.' (removeChar '-' (removeChar ' ' text))
      let cleanEntity := removeChar '.' (removeChar '-' (removeChar ' ' entity))
      if containsB (goToLower cleanText) (goToLower cleanEntity) then true
      else
        -- Strategy 4: for longer entities, at least two words of length > 2 found
        if entity.length > 5 then
          let words := goFields entity
          if words.length ≥ 2 then
            decide (2 ≤ words.countP
              (fun w => w.length > 2 && containsB (goToLower text) (goToLower w)))
          else false
        else false

/-- Fuel-driven worker for `goSplit`; with fuel at least the length of the
input it computes `strings.Split` for a non-empty separator (greedy leftmost
occurrence). -/
def splitAux (sep : Str) : Nat → Str → List Str
  | _, [] => [[]]
  | 0, l => [l]
  | fuel+1, c :: rest =>
    if sep.isPrefixOf (c :: rest) then
      [] :: splitAux sep fuel (List.drop sep.length (c :: rest))
    else
      match splitAux sep fuel rest with
      | [] => [[c]]
      | t :: ts => (c :: t) :: ts

/-- Models `strings.Split(l, sep)` for non-empty `sep`. -/
def goSplit (sep l : Str) : List Str := splitAux sep l.length l

theorem splitAux_ne_nil (sep : Str) (fuel : Nat) (l : Str) :
    splitAux sep fuel l ≠ [] := by
  match fuel, l with
  | fuel, [] => simp [splitAux]
  | 0, c :: rest => simp [splitAux]
  | fuel+1, c :: rest =>
    simp only [splitAux]
    split
    · simp
    · split <;> simp

theorem goSplit_ne_nil (sep l : Str) : goSplit sep l ≠ [] :=
  splitAux_ne_nil sep l.length l

theorem intercalate_cons_of_ne (sep x : Str) {l : List Str} (h : l ≠ []) :
    List.intercalate sep (x :: l) = x ++ sep ++ List.intercalate sep l := by
  obtain ⟨y, ys, rfl⟩ := List.exists_cons_of_ne_nil h
  simp [List.intercalate, List.append_assoc]

theorem sep_append_drop_of_isPrefixOf :
    ∀ {sep l : Str}, sep.isPrefixOf l → sep ++ List.drop sep.length l = l
  | [], l, _ => by simp
  | s :: ss, [], h => by simp [List.isPrefixOf] at h
  | s :: ss, c :: cs, h => by
    have h1 : (s == c && List.isPrefixOf ss cs) = true := h
    have h2 := (Bool.and_eq_true _ _).mp h1
    have hsc : s = c := by simpa using h2.1
    have ih := @sep_append_drop_of_isPrefixOf ss cs h2.2
    subst hsc
    simp only [List.length_cons, List.drop_succ_cons, List.cons_append]
    rw [ih]

/-- Joining the pieces of `goSplit` with the separator recovers the input. -/
theorem intercalate_splitAux (sep : Str) (hsep : sep ≠ []) :
    ∀ (fuel : Nat) (l : Str), l.length ≤ fuel →
      List.intercalate sep (splitAux sep fuel l) = l := by
  intro fuel
  induction fuel with
  | zero =>
    intro l hl
    have : l = [] := List.eq_nil_of_length_eq_zero (Nat.le_zero.mp hl)
    subst this
    simp [splitAux, List.intercalate]
  | succ fuel ih =>
    intro l hl
    match l with
    | [] => simp [splitAux, List.intercalate]
    | c :: rest =>
      simp only [splitAux]
      split
      · next hpre =>
        rw [intercalate_cons_of_ne sep [] (splitAux_ne_nil _ _ _)]
        have hdroplen : (List.drop sep.length (c :: rest)).length ≤ fuel := by
          have hsl : 1 ≤ sep.length := by
            cases sep with
            | nil => exact absurd rfl hsep
            | cons s ss => simp
          simp only [List.length_drop]
          omega
        rw [ih _ hdroplen, List.nil_append]
        exact sep_append_drop_of_isPrefixOf hpre
      · have hrest : rest.length ≤ fuel := by
          simpa using Nat.le_of_succ_le_succ hl
        have hrec := ih rest hrest
        match hsp : splitAux sep fuel rest with
        | [] => exact absurd hsp (splitAux_ne_nil _ _ _)
        | t :: ts =>
          rw [hsp] at hrec
          match ts with
          | [] =>
            simp only [List.intercalate, List.intersperse, List.flatten] at hrec ⊢
            simp only [List.append_nil] at hrec ⊢
            rw [hrec]
          | t2 :: ts2 =>
            rw [intercalate_cons_of_ne sep t (by simp)] at hrec
            rw [intercalate_cons_of_ne sep (c :: t) (by simp)]
            simp only [List.cons_append, List.append_assoc] at hrec ⊢
            rw [hrec]

theorem intercalate_goSplit (sep : Str) (hsep : sep ≠ []) (l : Str) :
    List.intercalate sep (goSplit sep l) = l :=
  intercalate_splitAux sep hsep l.length l (Nat.le_refl _)

/-- The sentence separator used by the sentence-level filters (`". "`). -/
def sentenceSep : Str := str ". "

/-- The fixed domain-keyword list of `extractRelevantSections`. -/
def businessKeywords : List Str :=
  [str "frivillig likvidation", str "dødsbo", str "konkurs", str "tvangsauktion",
   str "fusion", str "skifteret", str "sagsnummer", str "cpr", str "cvr",
   str "adresse", str "dødsdato"]

/-- The inner entity loop of the filters: does any tracked entity match the
sentence (`findEntityInText(sentence, entity)` with early break)? -/
def entityMatchAny (entities : List Str) (sentence : Str) : Bool :=
  entities.any (fun entity => findEntityInText sentence entity)

/-- The inner keyword loop of `extractRelevantSections`: does the lower-cased
sentence contain a business keyword (early break)? -/
def keywordMatch (sentence : Str) : Bool :=
  businessKeywords.any (fun keyword => containsB (goToLower sentence) keyword)

/-- One iteration of the sentence loop of `extractRelevantSections`: the
sentence is appended once when an entity matches and once more when a
keyword is contained. -/
def coarseFoldStep (entities : List Str) (acc : List Str) (sentence : Str) : List Str :=
  let acc := if entityMatchAny entities sentence then acc ++ [sentence] else acc
  if keywordMatch sentence then acc ++ [sentence] else acc

/-- Models `extractRelevantSections` from `internal/ai/extractor.go`:
sentence-level relevance filter with a first-1000-characters fallback. -/
def extractRelevantSections (text : Str) (entities : List Str) : Str :=
  let sentences := goSplit sentenceSep text
  let relevantSentences := sentences.foldl (coarseFoldStep entities) []
  if relevantSentences.length > 0 then
    List.intercalate sentenceSep relevantSentences
  else if text.length > 1000 then
    text.take 1000
  else text

/-- One iteration of the sentence loop of `extractUltraRelevantContent`:
only entity matches keep a sentence. -/
def ultraFoldStep (entities : List Str) (acc : List Str) (sentence : Str) : List Str :=
  if entityMatchAny entities sentence then acc ++ [sentence] else acc

/-- Models `extractUltraRelevantContent` from `internal/ai/extractor.go`:
entity-only sentence filter with a first-500-characters fallback. -/
def extractUltraRelevantContent (text : Str) (entities : List Str) : Str :=
  let sentences := goSplit sentenceSep text
  let ultraRelevantSentences := sentences.foldl (ultraFoldStep entities) []
  if ultraRelevantSentences.length > 0 then
    List.intercalate sentenceSep ultraRelevantSentences
  else if text.length > 500 then
    text.take 500
  else text

/-- The contribution of one sentence to the kept list of the coarse filter. -/
def coarseStep (entities : List Str) (s : Str) : List Str :=
  (if entityMatchAny entities s then [s] else []) ++ (if keywordMatch s then [s] else [])

/-- The kept-sentence list of the coarse filter, in loop order. -/
def coarseKept (text : Str) (entities : List Str) : List Str :=
  (goSplit sentenceSep text).flatMap (coarseStep entities)

/-- The kept-sentence list of the ultra filter, in loop order. -/
def ultraKept (text : Str) (entities : List Str) : List Str :=
  (goSplit sentenceSep text).filter (entityMatchAny entities)

theorem coarseFoldStep_eq (entities : List Str) (acc : List Str) (s : Str) :
    coarseFoldStep entities acc s = acc ++ coarseStep entities s := by
  simp only [coarseFoldStep, coarseStep]
  cases entityMatchAny entities s <;> cases keywordMatch s <;> simp

theorem foldl_coarse_eq (entities : List Str) (L acc : List Str) :
    L.foldl (coarseFoldStep entities) acc = acc ++ L.flatMap (coarseStep entities) := by
  induction L generalizing acc with
  | nil => simp
  | cons s t ih =>
    simp only [List.foldl_cons, List.flatMap_cons, coarseFoldStep_eq, ih, List.append_assoc]

theorem foldl_ultra_eq (entities : List Str) (L acc : List Str) :
    L.foldl (ultraFoldStep entities) acc = acc ++ L.filter (entityMatchAny entities) := by
  induction L generalizing acc with
  | nil => simp
  | cons s t ih =>
    simp only [List.foldl_cons, ultraFoldStep]
    cases h : entityMatchAny entities s <;>
      simp [List.filter_cons, h, ih, List.append_assoc]

theorem extractRelevantSections_eq (text : Str) (entities : List Str) :
    extractRelevantSections text entities =
      if (coarseKept text entities).length > 0 then
        List.intercalate sentenceSep (coarseKept text entities)
      else if text.length > 1000 then text.take 1000
      else text := by
  simp only [extractRelevantSections, coarseKept, foldl_coarse_eq, List.nil_append]

theorem extractUltraRelevantContent_eq (text : Str) (entities : List Str) :
    extractUltraRelevantContent text entities =
      if (ultraKept text entities).length > 0 then
        List.intercalate sentenceSep (ultraKept text entities)
      else if text.length > 500 then text.take 500
      else text := by
  simp only [extractUltraRelevantContent, ultraKept, foldl_ultra_eq, List.nil_append]

/-- `strings.Contains(s, "")` is true. -/
theorem containsB_nil_pat (l : Str) : containsB l [] = true := by
  cases l with
  | nil => rfl
  | cons c rest => simp [containsB, indexOfSubstr, List.isPrefixOf]

/-- C10: the Entity Matcher returns true for the empty tracked entity on
every text: the empty entity normalizes to the empty substring, which every
string contains under strategy 1. -/
theorem findEntityInText_empty_entity (text : Str) :
    findEntityInText text [] = true := by
  have h : containsB (goToLower (removeChar ' ' text)) (goToLower (removeChar ' ' [])) = true := by
    simp only [removeChar, List.filter_nil, goToLower, List.map_nil]
    exact containsB_nil_pat _
  simp [findEntityInText, h]

theorem containsB_nil_left_iff {pat : Str} : containsB [] pat = true ↔ pat = [] := by
  constructor
  · intro h
    by_contra hne
    simp [containsB, indexOfSubstr, hne] at h
  · intro h
    subst h
    rfl

/-- Every token produced by `strings.Fields` is non-empty. -/
theorem fieldsAux_ne_nil : ∀ (l cur : Str), ∀ p ∈ fieldsAux cur l, p ≠ [] := by
  intro l
  induction l with
  | nil =>
    intro cur p hp
    by_cases hc : cur = [] <;> simp [fieldsAux, hc] at hp
    subst hp
    simp [hc]
  | cons c rest ih =>
    intro cur p hp
    simp only [fieldsAux] at hp
    by_cases hs : goIsSpace c
    · simp only [hs, if_true] at hp
      by_cases hc : cur = []
      · rw [if_pos hc] at hp
        exact ih [] p hp
      · rw [if_neg hc] at hp
        rcases List.mem_cons.mp hp with h | h
        · subst h
          simp [hc]
        · exact ih [] p h
    · simp only [hs] at hp
      exact ih (c :: cur) p hp

theorem goFields_ne_nil (l : Str) : ∀ p ∈ goFields l, p ≠ [] :=
  fieldsAux_ne_nil l []

/-- The clean normalization of the entity (spaces, hyphens and periods
removed): the form compared by matching strategy 3. -/
def cleanEntity (entity : Str) : Str :=
  removeChar '.' (removeChar '-' (removeChar ' ' entity))

/-- If the Entity Matcher matches an entity against the empty text, the
entity's clean normalization is empty. -/
theorem cleanEntity_nil_of_match_nil {e : Str} (h : findEntityInText [] e = true) :
    cleanEntity e = [] := by
  simp only [findEntityInText, removeChar, List.filter_nil, goToLower, List.map_nil] at h
  split at h
  · -- strategy 1 fired on empty text: the space-free lower-cased entity is empty
    next h1 =>
    have : List.map lowerChar (List.filter (fun c => c != ' ') e) = [] :=
      containsB_nil_left_iff.mp h1
    have he : List.filter (fun c => c != ' ') e = [] := List.map_eq_nil_iff.mp this
    simp [cleanEntity, removeChar, he]
  · split at h
    · -- strategy 2 cannot fire on empty text: tokens are non-empty
      next h2 =>
      have hlen := (Bool.and_eq_true _ _).mp h2
      obtain ⟨hgt, hall⟩ := hlen
      have hpos : 0 < (goFields e).length := by
        have := of_decide_eq_true hgt
        omega
      obtain ⟨p, hp⟩ := List.exists_mem_of_length_pos hpos
      have hpe := List.all_eq_true.mp hall p hp
      have : List.map lowerChar p = [] := containsB_nil_left_iff.mp hpe
      exact absurd (List.map_eq_nil_iff.mp this) (goFields_ne_nil e p hp)
    · split at h
      · -- strategy 3 fired on empty text: the clean entity is empty
        next h3 =>
        have : List.map lowerChar (cleanEntity e) = [] := by
          simpa [cleanEntity, removeChar] using containsB_nil_left_iff.mp h3
        exact List.map_eq_nil_iff.mp this
      · -- strategy 4 cannot fire on empty text: counted words have length > 2
        exfalso
        split at h
        · split at h
          · have hcnt := of_decide_eq_true h
            have hpos := Nat.lt_of_lt_of_le (by norm_num : 0 < 2) hcnt
            obtain ⟨w, _, hw⟩ := List.countP_pos_iff.mp hpos
            have := (Bool.and_eq_true _ _).mp hw
            obtain ⟨hwlen, hwc⟩ := this
            have : goToLower w = [] := containsB_nil_left_iff.mp (by simpa using hwc)
            have hwnil : w = [] := List.map_eq_nil_iff.mp this
            subst hwnil
            simp at hwlen
          · simp at h
        · simp at h

/-- An entity whose clean normalization is empty matches every text
(strategy 3 always succeeds for it). -/
theorem findEntityInText_of_cleanEntity_nil {e : Str} (hc : cleanEntity e = [])
    (s : Str) : findEntityInText s e = true := by
  simp only [findEntityInText]
  split
  · rfl
  · split
    · rfl
    · have h3 : containsB
          (goToLower (removeChar '.' (removeChar '-' (removeChar ' ' s))))
          (goToLower (removeChar '.' (removeChar '-' (removeChar ' ' e)))) = true := by
        have : removeChar '.' (removeChar '-' (removeChar ' ' e)) = [] := hc
        rw [this]
        simp only [goToLower, List.map_nil]
        exact containsB_nil_pat _
      rw [if_pos h3]

theorem intercalate_eq_nil_cases {sep : Str} (hsep : sep ≠ []) :
    ∀ {ks : List Str}, ks ≠ [] → List.intercalate sep ks = [] → ks = [[]] := by
  intro ks hk h
  match ks with
  | [x] =>
    simp [List.intercalate] at h
    subst h
    rfl
  | x :: y :: t =>
    rw [intercalate_cons_of_ne sep x (by simp)] at h
    simp only [List.append_assoc, List.append_eq_nil] at h
    exact absurd h.2.1 hsep

theorem length_le_length_flatMap {f : Str → List Str} :
    ∀ (L : List Str), (∀ s ∈ L, f s ≠ []) → L.length ≤ (L.flatMap f).length := by
  intro L
  induction L with
  | nil => simp
  | cons s t ih =>
    intro h
    have hs : f s ≠ [] := h s (by simp)
    have hslen : 1 ≤ (f s).length := by
      cases hfe : f s with
      | nil => exact absurd hfe hs
      | cons a b => simp
    have ht := ih (fun x hx => h x (by simp [hx]))
    simp only [List.flatMap_cons, List.length_append, List.length_cons]
    omega

theorem mem_coarseStep {entities : List Str} {s p : Str}
    (h : p ∈ coarseStep entities s) : p = s := by
  simp only [coarseStep, List.mem_append] at h
  rcases h with h | h <;>
    [skip; skip] <;> split at h <;> simp_all

theorem keywordMatch_nil : keywordMatch [] = false := by decide

theorem entityMatchAny_all_of_nil {entities : List Str}
    (h : entityMatchAny entities [] = true) :
    ∀ s : Str, entityMatchAny entities s = true := by
  intro s
  obtain ⟨e, he, hfe⟩ := List.any_eq_true.mp h
  exact List.any_eq_true.mpr ⟨e, he,
    findEntityInText_of_cleanEntity_nil (cleanEntity_nil_of_match_nil hfe) s⟩

theorem coarseStep_ne_nil_of_entity {entities : List Str} {s : Str}
    (h : entityMatchAny entities s = true) : coarseStep entities s ≠ [] := by
  simp [coarseStep, h]

/-- The joined kept sentences of the coarse filter are non-empty whenever the
document is non-empty and some sentence was kept. -/
theorem coarse_join_ne_nil {text : Str} {entities : List Str} (htext : text ≠ [])
    (hne : coarseKept text entities ≠ []) :
    List.intercalate sentenceSep (coarseKept text entities) ≠ [] := by
  intro h
  have hsep : sentenceSep ≠ [] := by decide
  have hkept := intercalate_eq_nil_cases hsep hne h
  have hmem : ([] : Str) ∈ coarseKept text entities := by rw [hkept]; simp
  obtain ⟨s, hsmem, hstep⟩ := List.mem_flatMap.mp hmem
  have hsnil : ([] : Str) = s := mem_coarseStep hstep
  subst hsnil
  have hmatch : entityMatchAny entities [] = true := by
    by_contra hE
    have hE' : entityMatchAny entities [] = false := by
      cases hEb : entityMatchAny entities [] with
      | true => exact absurd hEb hE
      | false => rfl
    simp [coarseStep, hE', keywordMatch_nil] at hstep
  have hall := entityMatchAny_all_of_nil hmatch
  have hlenle : (goSplit sentenceSep text).length ≤ (coarseKept text entities).length :=
    length_le_length_flatMap _ (fun s _ => coarseStep_ne_nil_of_entity (hall s))
  rw [hkept] at hlenle
  simp only [List.length_cons, List.length_nil] at hlenle
  obtain ⟨y, hy⟩ := List.length_eq_one.mp
    (Nat.le_antisymm hlenle (by
      cases hsp : goSplit sentenceSep text with
      | nil => exact absurd hsp (goSplit_ne_nil _ _)
      | cons a b => simp))
  have hyy : coarseKept text entities = coarseStep entities y := by
    simp [coarseKept, hy]
  have hynil : y = [] := by
    have : ([] : Str) ∈ coarseStep entities y := by
      rw [← hyy, hkept]; simp
    exact (mem_coarseStep this).symm
  subst hynil
  have hrec := intercalate_goSplit sentenceSep hsep text
  rw [hy] at hrec
  simp [List.intercalate] at hrec
  exact htext hrec

/-- The joined kept sentences of the ultra filter are non-empty whenever the
document is non-empty and some sentence was kept. -/
theorem ultra_join_ne_nil {text : Str} {entities : List Str} (htext : text ≠ [])
    (hne : ultraKept text entities ≠ []) :
    List.intercalate sentenceSep (ultraKept text entities) ≠ [] := by
  intro h
  have hsep : sentenceSep ≠ [] := by decide
  have hkept := intercalate_eq_nil_cases hsep hne h
  have hmem : ([] : Str) ∈ ultraKept text entities := by rw [hkept]; simp
  have hmem' := List.mem_filter.mp hmem
  have hall := entityMatchAny_all_of_nil hmem'.2
  have hfull : ultraKept text entities = goSplit sentenceSep text :=
    List.filter_eq_self.mpr (fun a _ => hall a)
  have hrec := intercalate_goSplit sentenceSep hsep text
  rw [← hfull, hkept] at hrec
  simp [List.intercalate] at hrec
  exact htext hrec

/-- C5: for every non-empty input text and every entity list, both the coarse
sentence-level Relevance Filter and the ultra filter return a non-empty
string; when no sentence is kept they fall back to the first 1000 (coarse)
or 500 (ultra) characters of the input. -/
theorem relevanceFilter_ne_nil (text : Str) (entities : List Str)
    (h : text ≠ []) :
    extractRelevantSections text entities ≠ [] ∧
    extractUltraRelevantContent text entities ≠ [] := by
  constructor
  · rw [extractRelevantSections_eq]
    split
    · next hlen =>
      have hne : coarseKept text entities ≠ [] := by
        intro hk
        rw [hk] at hlen
        simp at hlen
      exact coarse_join_ne_nil h hne
    · split
      · intro htake
        rcases List.take_eq_nil_iff.mp htake with h1 | h1
        · omega
        · exact h h1
      · exact h
  · rw [extractUltraRelevantContent_eq]
    split
    · next hlen =>
      have hne : ultraKept text entities ≠ [] := by
        intro hk
        rw [hk] at hlen
        simp at hlen
      exact ultra_join_ne_nil h hne
    · split
      · intro htake
        rcases List.take_eq_nil_iff.mp htake with h1 | h1
        · omega
        · exact h h1
      · exact h

/-- Witness for C5 at a concrete input. -/
theorem relevanceFilter_ne_nil_witness :
    str "a" ≠ [] ∧
    (extractRelevantSections (str "a") [] ≠ [] ∧
      extractUltraRelevantContent (str "a") [] ≠ []) :=
  ⟨by decide, relevanceFilter_ne_nil (str "a") [] (by decide)⟩

theorem coarseStep_sublist_pair (entities : List Str) (s : Str) :
    coarseStep entities s <+ [s, s] := by
  simp only [coarseStep]
  cases entityMatchAny entities s <;> cases keywordMatch s <;> simp

theorem flatMap_sublist_flatMap {f g : Str → List Str}
    (h : ∀ s, f s <+ g s) : ∀ L : List Str, L.flatMap f <+ L.flatMap g := by
  intro L
  induction L with
  | nil => simp
  | cons s t ih =>
    simp only [List.flatMap_cons]
    exact List.Sublist.append (h s) ih

theorem mem_goSplit_of_mem_coarseKept {text : Str} {entities : List Str} {p : Str}
    (h : p ∈ coarseKept text entities) : p ∈ goSplit sentenceSep text := by
  obtain ⟨s, hs, hp⟩ := List.mem_flatMap.mp h
  rw [mem_coarseStep hp]
  exact hs

theorem self_mem_coarseStep {entities : List Str} {s : Str}
    (h : entityMatchAny entities s = true ∨ keywordMatch s = true) :
    s ∈ coarseStep entities s := by
  rcases h with h | h <;> simp [coarseStep, h]

/-- C6 (amended): if the document contains a sentence matching a tracked
entity or a business keyword, the coarse filter output is the join of the
kept sentences; every kept sentence is a sentence of the document, kept in
original order with each sentence contributing at most twice, and the
output is non-empty for a non-empty document.  (The output is *not* in
general a strict subset of the document.) -/
theorem extractRelevantSections_kept (text : Str) (entities : List Str)
    (hdoc : text ≠ [])
    (hmatch : ∃ s ∈ goSplit sentenceSep text,
      entityMatchAny entities s = true ∨ keywordMatch s = true) :
    extractRelevantSections text entities =
        List.intercalate sentenceSep (coarseKept text entities) ∧
    coarseKept text entities ≠ [] ∧
    coarseKept text entities <+
      (goSplit sentenceSep text).flatMap (fun s => [s, s]) ∧
    (∀ p ∈ coarseKept text entities, p ∈ goSplit sentenceSep text) ∧
    extractRelevantSections text entities ≠ [] := by
  obtain ⟨s, hs, hkeep⟩ := hmatch
  have hne : coarseKept text entities ≠ [] := by
    have : s ∈ coarseKept text entities :=
      List.mem_flatMap.mpr ⟨s, hs, self_mem_coarseStep hkeep⟩
    exact List.ne_nil_of_mem this
  have hlen : (coarseKept text entities).length > 0 := by
    cases hc : coarseKept text entities with
    | nil => exact absurd hc hne
    | cons a b => simp
  have heq : extractRelevantSections text entities =
      List.intercalate sentenceSep (coarseKept text entities) := by
    rw [extractRelevantSections_eq, if_pos hlen]
  refine ⟨heq, hne, ?_, fun p hp => mem_goSplit_of_mem_coarseKept hp, ?_⟩
  · exact flatMap_sublist_flatMap (coarseStep_sublist_pair entities) _
  · rw [heq]
    exact coarse_join_ne_nil hdoc hne

/-- C6 counterexample: the document "cpr" contains a keyword-matching
sentence, yet the filter returns the whole document — the output is not a
strict subset of the document. -/
theorem extractRelevantSections_not_strict_subset :
    (∃ s ∈ goSplit sentenceSep (str "cpr"),
      entityMatchAny [] s = true ∨ keywordMatch s = true) ∧
    extractRelevantSections (str "cpr") [] = str "cpr" ∧
    ¬((extractRelevantSections (str "cpr") []).length < (str "cpr").length) := by
  refine ⟨by decide, by decide, by decide⟩

/-- Witness for C6 at a concrete input. -/
theorem extractRelevantSections_kept_witness :
    (str "cpr" ≠ [] ∧
      ∃ s ∈ goSplit sentenceSep (str "cpr"),
        entityMatchAny [] s = true ∨ keywordMatch s = true) ∧
    (extractRelevantSections (str "cpr") [] =
        List.intercalate sentenceSep (coarseKept (str "cpr") []) ∧
    coarseKept (str "cpr") [] ≠ [] ∧
    coarseKept (str "cpr") [] <+
      (goSplit sentenceSep (str "cpr")).flatMap (fun s => [s, s]) ∧
    (∀ p ∈ coarseKept (str "cpr") [], p ∈ goSplit sentenceSep (str "cpr")) ∧
    extractRelevantSections (str "cpr") [] ≠ []) :=
  ⟨⟨by decide, by decide⟩,
    extractRelevantSections_kept (str "cpr") [] (by decide) (by decide)⟩

theorem intercalate_length_le_cons (sep y : Str) (l : List Str) :
    (List.intercalate sep l).length ≤ (List.intercalate sep (y :: l)).length := by
  cases l with
  | nil => simp [List.intercalate]
  | cons a t =>
    rw [intercalate_cons_of_ne sep y (by simp)]
    simp only [List.length_append]
    omega

theorem intercalate_length_mono (sep : Str) {k1 k2 : List Str} (h : k1 <+ k2) :
    (List.intercalate sep k1).length ≤ (List.intercalate sep k2).length := by
  induction h with
  | slnil => exact Nat.le_refl _
  | cons y h ih => exact Nat.le_trans ih (intercalate_length_le_cons sep y _)
  | cons₂ x h ih =>
    rename_i k1 k2
    cases hk1 : k1 with
    | nil =>
      subst hk1
      cases k2 with
      | nil => exact Nat.le_refl _
      | cons b t =>
        have hx : List.intercalate sep [x] = x := by simp [List.intercalate]
        rw [show List.intercalate sep (x :: b :: t) =
            x ++ sep ++ List.intercalate sep (b :: t) from
          intercalate_cons_of_ne sep x (by simp), hx]
        simp only [List.length_append]
        omega
    | cons a t =>
      subst hk1
      have hk2 : k2 ≠ [] := by
        intro hh
        subst hh
        exact absurd (List.Sublist.length_le h) (by simp)
      rw [intercalate_cons_of_ne sep x (by simp),
        intercalate_cons_of_ne sep x hk2]
      simp only [List.length_append]
      omega

theorem ultraKept_sublist_coarseKept (text : Str) (entities : List Str) :
    ultraKept text entities <+ coarseKept text entities := by
  simp only [ultraKept, coarseKept]
  induction goSplit sentenceSep text with
  | nil => simp
  | cons s t ih =>
    simp only [List.flatMap_cons, List.filter_cons]
    cases hE : entityMatchAny entities s with
    | true =>
      simp only [if_pos rfl, coarseStep, hE, if_true]
      exact List.Sublist.trans (List.Sublist.cons₂ s ih)
        (by
          have : s :: t.flatMap (coarseStep entities) <+
              (s :: (if keywordMatch s then [s] else [])) ++ t.flatMap (coarseStep entities) := by
            cases keywordMatch s <;> simp
          simp)
    | false =>
      simp only [Bool.false_eq_true, if_false]
      exact List.Sublist.trans ih (List.sublist_append_right _ _)

/-- C7 (amended): the ultra filter output is no longer than the coarse
filter output whenever the ultra filter keeps at least one sentence, or the
coarse filter keeps none; when the ultra filter falls back to the 500
character prefix while the coarse filter kept a short sentence list, the
inequality can fail. -/
theorem ultraFilter_length_le (text : Str) (entities : List Str)
    (h : ultraKept text entities ≠ [] ∨ coarseKept text entities = []) :
    (extractUltraRelevantContent text entities).length ≤
      (extractRelevantSections text entities).length := by
  rw [extractUltraRelevantContent_eq, extractRelevantSections_eq]
  rcases h with h | h
  · have hu : (ultraKept text entities).length > 0 := by
      cases hc : ultraKept text entities with
      | nil => exact absurd hc h
      | cons a b => simp
    have hsub := ultraKept_sublist_coarseKept text entities
    have hc : (coarseKept text entities).length > 0 :=
      Nat.lt_of_lt_of_le hu (List.Sublist.length_le hsub)
    rw [if_pos hu, if_pos hc]
    exact intercalate_length_mono sentenceSep hsub
  · have hu : ultraKept text entities = [] := by
      have := ultraKept_sublist_coarseKept text entities
      rw [h] at this
      exact List.sublist_nil.mp this
    rw [h, hu]
    simp only [List.length_nil, gt_iff_lt, Nat.lt_irrefl, if_false]
    by_cases h1 : text.length > 1000 <;> by_cases h2 : text.length > 500
    · simp [h1, h2, List.length_take]
    · simp only [h1, h2, if_true, if_false, List.length_take]
      omega
    · simp [h1, h2, List.length_take]
    · simp [h1, h2, List.length_take]

/-- The document of the C7 counterexample: a keyword-only first sentence
followed by one long irrelevant sentence. -/
def c7text : Str := str "cpr. " ++ List.replicate 503 'a'

set_option maxRecDepth 20000 in
/-- C7 counterexample: on `c7text` with no tracked entities, the ultra
filter falls back to the first 500 characters (length 500) while the coarse
filter keeps only the keyword sentence (length 3), so the claimed
inequality fails. -/
theorem ultraFilter_length_le_counterexample :
    (extractUltraRelevantContent c7text []).length = 500 ∧
    (extractRelevantSections c7text []).length = 3 ∧
    ¬((extractUltraRelevantContent c7text []).length ≤
        (extractRelevantSections c7text []).length) := by
  refine ⟨by decide, by decide, by decide⟩

/-- Witness for C7 at a concrete input. -/
theorem ultraFilter_length_le_witness :
    (ultraKept (str "xyz") [] ≠ [] ∨ coarseKept (str "xyz") [] = []) ∧
    (extractUltraRelevantContent (str "xyz") []).length ≤
      (extractRelevantSections (str "xyz") []).length :=
  ⟨Or.inr (by decide), ultraFilter_length_le (str "xyz") [] (Or.inr (by decide))⟩

/-- Models `strings.Split(text, "\n")`. -/
def goLines (text : Str) : List Str := text.splitOn '\n'

/-- The three loop variables of `smartChunkText`: emitted chunks, the
current builder content, and the running length counter. -/
structure ChunkState where
  chunks : List Str
  cur : Str
  curLen : Nat

/-- One iteration of the line loop of `smartChunkText`: flush the current
chunk when the next line would exceed the budget, then append the line and
a newline. -/
def smartChunkStep (maxChars : Nat) (st : ChunkState) (line : Str) : ChunkState :=
  let st :=
    if maxChars < st.curLen + line.length ∧ 0 < st.curLen then
      let c := trimSpace st.cur
      ⟨if c ≠ [] then st.chunks ++ [c] else st.chunks, [], 0⟩
    else st
  ⟨st.chunks, st.cur ++ line ++ ['\n'], st.curLen + line.length + 1⟩

/-- Models `smartChunkText` from `internal/ai/extractor.go`: line-based
accumulation into chunks of at most `maxTokens * 3` characters, with a
whole-input fast path and a final flush. -/
def smartChunkText (text : Str) (maxTokens : Nat) : List Str :=
  if (trimSpace text).length = 0 then []
  else
    let maxChars := maxTokens * 3
    if text.length ≤ maxChars then [text]
    else
      let final := (goLines text).foldl (smartChunkStep maxChars) ⟨[], [], 0⟩
      if 0 < final.cur.length then
        let c := trimSpace final.cur
        if c ≠ [] then final.chunks ++ [c] else final.chunks
      else final.chunks

theorem trimLeft_length_le (l : Str) : (trimLeft l).length ≤ l.length :=
  (List.dropWhile_sublist goIsSpace).length_le

theorem trimRight_length_le (l : Str) : (trimRight l).length ≤ l.length := by
  simp only [trimRight]
  calc (l.reverse.dropWhile goIsSpace).reverse.length
      = (l.reverse.dropWhile goIsSpace).length := by simp
    _ ≤ l.reverse.length := (List.dropWhile_sublist goIsSpace).length_le
    _ = l.length := by simp

theorem trimSpace_length_le (l : Str) : (trimSpace l).length ≤ l.length :=
  Nat.le_trans (trimLeft_length_le _) (trimRight_length_le _)

theorem trimRight_append_newline (y : Str) :
    trimRight (y ++ ['\n']) = trimRight y := by
  simp [trimRight, List.dropWhile_cons, goIsSpace]

theorem trimSpace_append_newline_length (y : Str) :
    (trimSpace (y ++ ['\n'])).length ≤ y.length := by
  simp only [trimSpace, trimRight_append_newline]
  exact Nat.le_trans (trimLeft_length_le _) (trimRight_length_le _)

/-- The builder content corresponding to a list of accumulated lines:
each line followed by the newline written after it. -/
def joinNl (ls : List Str) : Str := (ls.map (fun l => l ++ ['\n'])).flatten

theorem joinNl_append (a b : List Str) : joinNl (a ++ b) = joinNl a ++ joinNl b := by
  simp [joinNl]

theorem joinNl_ends_newline : ∀ {ls : List Str}, ls ≠ [] →
    ∃ y : Str, joinNl ls = y ++ ['\n'] := by
  intro ls h
  induction ls with
  | nil => exact absurd rfl h
  | cons l rest ih =>
    cases rest with
    | nil => exact ⟨l, by simp [joinNl]⟩
    | cons r rs =>
      obtain ⟨y, hy⟩ := ih (by simp)
      refine ⟨(l ++ ['\n']) ++ y, ?_⟩
      have : joinNl (l :: r :: rs) = (l ++ ['\n']) ++ joinNl (r :: rs) := by
        simp [joinNl]
      rw [this, hy]
      simp [List.append_assoc]

/-- A chunk respects the budget, or is the trimmed form of a single
oversized line. -/
def chunkOk (maxChars : Nat) (lines : List Str) (c : Str) : Prop :=
  c.length ≤ maxChars ∨
    ∃ l ∈ lines, maxChars < l.length ∧ c = trimSpace (l ++ ['\n'])

/-- Loop invariant of `smartChunkText`: emitted chunks are `chunkOk`, the
counter tracks the builder length, and the builder holds the accumulated
lines, within budget + newline slack unless it is one oversized line. -/
def ChunkInv (maxChars : Nat) (lines : List Str) (st : ChunkState) : Prop :=
  (∀ c ∈ st.chunks, chunkOk maxChars lines c) ∧
  st.curLen = st.cur.length ∧
  (st.cur = [] ∧ st.curLen = 0 ∨
    ∃ ls, ls ≠ [] ∧ (∀ l ∈ ls, l ∈ lines) ∧ st.cur = joinNl ls ∧
      (st.curLen ≤ maxChars + 1 ∨ ∃ l, ls = [l] ∧ maxChars < l.length))

theorem flush_chunkOk {maxChars : Nat} {lines : List Str} {st : ChunkState}
    (hinv : ChunkInv maxChars lines st) (hpos : 0 < st.curLen) :
    chunkOk maxChars lines (trimSpace st.cur) := by
  obtain ⟨-, hlen, hcur⟩ := hinv
  rcases hcur with ⟨-, h0⟩ | ⟨ls, hne, hmem, hcureq, hbound⟩
  · omega
  · rcases hbound with hb | ⟨l, hls, hlbig⟩
    · obtain ⟨y, hy⟩ := joinNl_ends_newline hne
      left
      rw [hcureq, hy]
      have h1 := trimSpace_append_newline_length y
      have h2 : st.curLen = y.length + 1 := by
        rw [hlen, hcureq, hy]
        simp
      omega
    · right
      refine ⟨l, hmem l (by simp [hls]), hlbig, ?_⟩
      rw [hcureq, hls]
      simp [joinNl]

theorem smartChunkStep_inv {maxChars : Nat} {lines : List Str} {st : ChunkState}
    {line : Str} (hline : line ∈ lines) (hinv : ChunkInv maxChars lines st) :
    ChunkInv maxChars lines (smartChunkStep maxChars st line) := by
  obtain ⟨hchunks, hlen, hcur⟩ := hinv
  by_cases hcond : maxChars < st.curLen + line.length ∧ 0 < st.curLen
  · -- flush, then start a fresh chunk holding only `line`
    have hok := flush_chunkOk ⟨hchunks, hlen, hcur⟩ hcond.2
    simp only [smartChunkStep, if_pos hcond]
    refine ⟨?_, by simp, Or.inr ⟨[line], by simp, by simpa using hline, by simp [joinNl], ?_⟩⟩
    · intro c hc
      split at hc
      · rcases List.mem_append.mp hc with h | h
        · exact hchunks c h
        · rw [List.mem_singleton.mp h]
          exact hok
      · exact hchunks c hc
    · by_cases hbig : maxChars < line.length
      · exact Or.inr ⟨line, rfl, hbig⟩
      · left
        simp only [List.nil_append]
        omega
  · -- no flush: append `line` to the current chunk
    simp only [smartChunkStep, if_neg hcond]
    refine ⟨hchunks, by simp [hlen]; omega, ?_⟩
    rcases hcur with ⟨hnil, h0⟩ | ⟨ls, hne, hmem, hcureq, hbound⟩
    · refine Or.inr ⟨[line], by simp, by simpa using hline, ?_, ?_⟩
      · simp [joinNl, hnil]
      · by_cases hbig : maxChars < line.length
        · exact Or.inr ⟨line, rfl, hbig⟩
        · left
          show st.curLen + line.length + 1 ≤ maxChars + 1
          omega
    · refine Or.inr ⟨ls ++ [line], by simp, ?_, ?_, ?_⟩
      · intro l hl
        rcases List.mem_append.mp hl with h | h
        · exact hmem l h
        · rw [List.mem_singleton.mp h]
          exact hline
      · rw [joinNl_append, hcureq]
        simp [joinNl]
      · left
        have hposcur : 0 < st.curLen := by
          rw [hlen]
          cases hc : st.cur with
          | nil => exact absurd hc (by
              intro hh
              apply hne
              cases ls with
              | nil => rfl
              | cons a b =>
                exfalso
                have : st.cur ≠ [] := by
                  rw [hcureq]
                  obtain ⟨y, hy⟩ := joinNl_ends_newline (List.cons_ne_nil a b)
                  rw [hy]
                  simp
                exact this hh)
          | cons a b => simp
        have : ¬ maxChars < st.curLen + line.length := by
          intro hh
          exact hcond ⟨hh, hposcur⟩
        show st.curLen + line.length + 1 ≤ maxChars + 1
        omega

theorem foldl_smartChunkStep_inv (maxChars : Nat) (lines : List Str) :
    ∀ (L : List Str), (∀ l ∈ L, l ∈ lines) → ∀ st, ChunkInv maxChars lines st →
      ChunkInv maxChars lines (L.foldl (smartChunkStep maxChars) st) := by
  intro L
  induction L with
  | nil => exact fun _ st h => h
  | cons l t ih =>
    intro hsub st hst
    exact ih (fun x hx => hsub x (by simp [hx])) _
      (smartChunkStep_inv (hsub l (by simp)) hst)

/-- C8: every chunk produced by `smartChunkText` has at most
`maxTokens * 3` characters, except a chunk holding a single line that
itself exceeds the budget, which is emitted whole as its own oversized
chunk. -/
theorem smartChunkText_size (text : Str) (maxTokens : Nat) :
    ∀ c ∈ smartChunkText text maxTokens,
      c.length ≤ maxTokens * 3 ∨
      ∃ line ∈ goLines text, maxTokens * 3 < line.length ∧
        c = trimSpace (line ++ ['\n']) := by
  intro c hc
  unfold smartChunkText at hc
  split at hc
  · simp at hc
  · dsimp only at hc
    split at hc
    · next hsmall =>
      rw [List.mem_singleton.mp hc]
      exact Or.inl hsmall
    · have hinv := foldl_smartChunkStep_inv (maxTokens * 3) (goLines text)
        (goLines text) (fun l hl => hl) ⟨[], [], 0⟩
        ⟨by simp, rfl, Or.inl ⟨rfl, rfl⟩⟩
      set final := (goLines text).foldl (smartChunkStep (maxTokens * 3)) ⟨[], [], 0⟩ with hfinal
      obtain ⟨hchunks, hlen, hcur⟩ := hinv
      split at hc
      · next hpos =>
        have hok := flush_chunkOk ⟨hchunks, hlen, hcur⟩ (by rw [hlen]; exact hpos)
        split at hc
        · rcases List.mem_append.mp hc with h | h
          · exact hchunks c h
          · rw [List.mem_singleton.mp h]
            exact hok
        · exact hchunks c hc
      · exact hchunks c hc

/-- Witness for C8 at a concrete input. -/
theorem smartChunkText_size_witness :
    str "ab" ∈ smartChunkText (str "ab") 1 ∧
    ((str "ab").length ≤ 1 * 3 ∨
      ∃ line ∈ goLines (str "ab"), 1 * 3 < line.length ∧
        str "ab" = trimSpace (line ++ ['\n'])) :=
  ⟨by decide, smartChunkText_size (str "ab") 1 (str "ab") (by decide)⟩

/-- The result mapping of an extraction (Go `map[string]string` as a
map from entity to extracted text, possibly undefined). -/
abbrev ResultMap := Str → Option Str

/-- The empty map. -/
def emptyMap : ResultMap := fun _ => none

/-- Map update `m[k] = v`. -/
def mapInsert (m : ResultMap) (k v : Str) : ResultMap :=
  fun q => if q = k then some v else m q

/-- The canonical "No information found." value. -/
def noInfoFound : Str := str "No information found."

/-- The blank-line boundary used when cutting an entity's paragraph out of
the model answer. -/
def doubleNewline : Str := str "\n\n"

/-- The per-entity answer parsing shared by the extraction functions: find
the entity (case-insensitively) in the answer, cut to the next blank line
(or the end), and trim; `none` when the entity does not occur. -/
def parseEntityInfo (answer entity : Str) : Option Str :=
  match indexOfSubstr (goToLower answer) (goToLower entity) with
  | some idx =>
    let rest := answer.drop idx
    let stop := (indexOfSubstr rest doubleNewline).getD rest.length
    some (trimSpace (rest.take stop))
  | none => none

/-- The parse loop over all entities on one answer, entities not found in
the answer mapping to "No information found." (lines 836–851 of the
concatenated extractor source). -/
def parsedResults (answer : Str) (entities : List Str) : ResultMap :=
  entities.foldl
    (fun m entity => mapInsert m entity ((parseEntityInfo answer entity).getD noInfoFound))
    emptyMap

/-- The early-termination result: every entity maps to
"No information found.". -/
def allNoInfo (entities : List Str) : ResultMap :=
  entities.foldl (fun m entity => mapInsert m entity noInfoFound) emptyMap

/-- Outcome of one chat-completion call by the abstract provider. -/
inductive ChatOutcome where
  | ok (answer : Str)
  | okEmpty
  | err (msg : Str)
deriving DecidableEq

/-- Rate-limit detection on an error message (`"429"`, `"rate limit"` or
`"Too Many Requests"` as substrings). -/
def isRateLimitMsg (msg : Str) : Bool :=
  containsB msg (str "429") || containsB msg (str "rate limit") ||
    containsB msg (str "Too Many Requests")

/-- `maxRetries := 3` of the retry loops. -/
def maxRetries : Nat := 3

/-- Observable outcome of the retry loop: the returned value, the backoff
delays slept (in seconds, in order), and the number of provider calls. -/
structure LoopOut where
  result : Except Str ResultMap
  slept : List Nat
  calls : Nat

/-- The retry loop of `ExtractEntitiesFromPDFFile` (lines 786–855 of the
concatenated extractor source), with `remaining = maxRetries - attempt` as
structural fuel.  The provider is abstracted as a function of the attempt
index; the prompt content does not influence this abstract provider. -/
def chatLoopAux (p : Nat → ChatOutcome) (entities : List Str) :
    Nat → Nat → Nat → List Nat → Nat → LoopOut
  | _attempt, 0, _delay, slept, calls =>
    ⟨Except.error (str "failed to process document after 3 attempts"), slept, calls⟩
  | attempt, remaining+1, delay, slept, calls =>
    -- sleep `delay` before every attempt after the first
    let slept := if attempt > 0 then slept ++ [delay] else slept
    match p attempt with
    | ChatOutcome.err msg =>
      if isRateLimitMsg msg then
        if attempt < maxRetries - 1 then
          -- exponential backoff: double the delay, cap at 60 seconds
          let d := delay * 2
          let d := if d > 60 then 60 else d
          chatLoopAux p entities (attempt+1) remaining d slept (calls+1)
        else ⟨Except.error (str "rate limit exceeded after 3 retries: " ++ msg), slept, calls+1⟩
      else ⟨Except.error (str "failed to get chat completion: " ++ msg), slept, calls+1⟩
    | ChatOutcome.okEmpty => ⟨Except.error (str "no response from OpenAI"), slept, calls+1⟩
    | ChatOutcome.ok answer => ⟨Except.ok (parsedResults answer entities), slept, calls+1⟩

/-- The retry loop started with attempt 0 and an initial delay of 1s. -/
def chatRetryLoop (p : Nat → ChatOutcome) (entities : List Str) : LoopOut :=
  chatLoopAux p entities 0 maxRetries 1 [] 0

/-- Models `ExtractEntitiesFromPDFFile` (the early-termination variant,
lines 708–857 of the concatenated extractor source) from the point where
the PDF text is available: entity presence check, early termination,
relevance filtering, then the retry loop against the abstract provider. -/
def extractEntitiesFromPDFFile (p : Nat → ChatOutcome) (pdfText : Str)
    (entities : List Str) : LoopOut :=
  let entitiesFound := entities.any (fun entity => findEntityInText pdfText entity)
  if entitiesFound then
    let textToProcess := extractRelevantSections pdfText entities
    let _textToProcess :=
      if textToProcess.length > 8000 then extractUltraRelevantContent textToProcess entities
      else textToProcess
    chatRetryLoop p entities
  else
    ⟨Except.ok (allNoInfo entities), [], 0⟩

theorem foldl_mapInsert_lookup (f : Str → Str) :
    ∀ (entities : List Str) (m0 : ResultMap) (k : Str),
      (entities.foldl (fun m e => mapInsert m e (f e)) m0) k =
        if k ∈ entities then some (f k) else m0 k := by
  intro entities
  induction entities with
  | nil => simp
  | cons e rest ih =>
    intro m0 k
    simp only [List.foldl_cons, ih]
    by_cases hk : k ∈ rest
    · simp [hk]
    · by_cases hke : k = e
      · subst hke
        simp [mapInsert, hk]
      · simp [mapInsert, hk, hke]

theorem allNoInfo_lookup (entities : List Str) (k : Str) :
    allNoInfo entities k = if k ∈ entities then some noInfoFound else none :=
  foldl_mapInsert_lookup (fun _ => noInfoFound) entities emptyMap k

/-- C2: when no tracked entity matches anywhere in the document text, the
extraction performs no provider call, sleeps no backoff delay, and returns
the map sending every tracked entity to "No information found.". -/
theorem extract_early_termination (p : Nat → ChatOutcome) (pdfText : Str)
    (entities : List Str)
    (h : ∀ e ∈ entities, findEntityInText pdfText e = false) :
    (extractEntitiesFromPDFFile p pdfText entities).calls = 0 ∧
    (extractEntitiesFromPDFFile p pdfText entities).slept = [] ∧
    (extractEntitiesFromPDFFile p pdfText entities).result =
      Except.ok (allNoInfo entities) ∧
    (∀ k, allNoInfo entities k = if k ∈ entities then some noInfoFound else none) := by
  have hfound : entities.any (fun entity => findEntityInText pdfText entity) = false := by
    rw [List.any_eq_false]
    intro e he
    simp [h e he]
  simp only [extractEntitiesFromPDFFile, hfound, Bool.false_eq_true, if_false]
  exact ⟨trivial, trivial, trivial, allNoInfo_lookup entities⟩

/-- Witness for C2 at a concrete input. -/
theorem extract_early_termination_witness :
    (∀ e ∈ [str "qqqqqq"], findEntityInText (str "abc") e = false) ∧
    ((extractEntitiesFromPDFFile (fun _ => ChatOutcome.okEmpty) (str "abc")
        [str "qqqqqq"]).calls = 0 ∧
     (extractEntitiesFromPDFFile (fun _ => ChatOutcome.okEmpty) (str "abc")
        [str "qqqqqq"]).slept = [] ∧
     (extractEntitiesFromPDFFile (fun _ => ChatOutcome.okEmpty) (str "abc")
        [str "qqqqqq"]).result = Except.ok (allNoInfo [str "qqqqqq"]) ∧
     (∀ k, allNoInfo [str "qqqqqq"] k =
        if k ∈ [str "qqqqqq"] then some noInfoFound else none)) :=
  ⟨by decide, extract_early_termination _ (str "abc") [str "qqqqqq"] (by decide)⟩

/-- C1 (amended): with rate-limit failures on the first two attempts and
success on the third, the retry loop returns the parsed successful result
after three calls, and the backoff delays slept are 2s then 4s: the delay
starts at 1s and is doubled (capped at 60s) after every retryable failure,
before the sleep that precedes the retry. -/
theorem chatRetryLoop_two_rate_limits (p : Nat → ChatOutcome) (entities : List Str)
    (m0 m1 ans : Str)
    (h0 : p 0 = ChatOutcome.err m0) (hr0 : isRateLimitMsg m0 = true)
    (h1 : p 1 = ChatOutcome.err m1) (hr1 : isRateLimitMsg m1 = true)
    (h2 : p 2 = ChatOutcome.ok ans) :
    chatRetryLoop p entities =
      ⟨Except.ok (parsedResults ans entities), [2, 4], 3⟩ := by
  unfold chatRetryLoop
  show chatLoopAux p entities 0 3 1 [] 0 = _
  rw [chatLoopAux, h0]
  simp only [hr0, if_true, maxRetries]
  norm_num
  rw [chatLoopAux, h1]
  simp only [hr1, if_true, maxRetries]
  norm_num
  rw [chatLoopAux, h2]
  norm_num

/-- A provider that is rate-limited twice, then succeeds. -/
def c1provider : Nat → ChatOutcome := fun n =>
  if n < 2 then ChatOutcome.err (str "429 Too Many Requests")
  else ChatOutcome.ok (str "answer")

/-- C1 counterexample: in the fail-twice-then-succeed run the delays slept
are 2s and 4s, not the claimed 1s and 2s (the first sleep already uses the
doubled delay). -/
theorem chatRetryLoop_delays_counterexample :
    (chatRetryLoop c1provider [str "x"]).slept = [2, 4] ∧
    (chatRetryLoop c1provider [str "x"]).slept ≠ [1, 2] ∧
    (chatRetryLoop c1provider [str "x"]).result.isOk = true := by
  refine ⟨by decide, by decide, by decide⟩

/-- Witness for C1 (amended) at a concrete provider. -/
theorem chatRetryLoop_two_rate_limits_witness :
    (c1provider 0 = ChatOutcome.err (str "429 Too Many Requests") ∧
     isRateLimitMsg (str "429 Too Many Requests") = true ∧
     c1provider 1 = ChatOutcome.err (str "429 Too Many Requests") ∧
     c1provider 2 = ChatOutcome.ok (str "answer")) ∧
    chatRetryLoop c1provider [str "x"] =
      ⟨Except.ok (parsedResults (str "answer") [str "x"]), [2, 4], 3⟩ :=
  ⟨⟨by decide, by decide, by decide, by decide⟩,
    chatRetryLoop_two_rate_limits c1provider [str "x"]
      (str "429 Too Many Requests") (str "429 Too Many Requests") (str "answer")
      (by decide) (by decide) (by decide) (by decide) (by decide)⟩

/-- C3: a first-attempt provider error that is not classified as a rate
limit is returned immediately: one call, no retry, no backoff sleep. -/
theorem chatRetryLoop_fatal_first (p : Nat → ChatOutcome) (entities : List Str)
    (msg : Str) (h0 : p 0 = ChatOutcome.err msg)
    (hnr : isRateLimitMsg msg = false) :
    chatRetryLoop p entities =
      ⟨Except.error (str "failed to get chat completion: " ++ msg), [], 1⟩ := by
  unfold chatRetryLoop
  show chatLoopAux p entities 0 3 1 [] 0 = _
  rw [chatLoopAux, h0]
  simp [hnr]

/-- A provider that always fails with an authentication error. -/
def c3provider : Nat → ChatOutcome := fun _ => ChatOutcome.err (str "401 Unauthorized")

/-- Witness for C3 at a concrete provider. -/
theorem chatRetryLoop_fatal_first_witness :
    (c3provider 0 = ChatOutcome.err (str "401 Unauthorized") ∧
     isRateLimitMsg (str "401 Unauthorized") = false) ∧
    chatRetryLoop c3provider [str "x"] =
      ⟨Except.error (str "failed to get chat completion: " ++ str "401 Unauthorized"), [], 1⟩ :=
  ⟨⟨by decide, by decide⟩,
    chatRetryLoop_fatal_first c3provider [str "x"] (str "401 Unauthorized")
      (by decide) (by decide)⟩

/-- The merge of a newly parsed chunk value with the entity's current map
entry (lines 1005–1010 of the concatenated extractor source): append with a
blank line when an entry exists and differs from "No information found.",
otherwise store the new value. -/
def mergeVal (existing : Option Str) (info : Str) : Str :=
  match existing with
  | some e => if e ≠ noInfoFound then e ++ doubleNewline ++ info else info
  | none => info

/-- The per-chunk parse loop of the chunked `ExtractEntitiesFromPDFFile`
(lines 995–1012 of the concatenated extractor source): entities found in
the chunk answer are merged into the map, others are left untouched. -/
def parseChunkAnswer (answer : Str) (entities : List Str) (m : ResultMap) : ResultMap :=
  entities.foldl
    (fun m entity =>
      match parseEntityInfo answer entity with
      | some info => mapInsert m entity (mergeVal (m entity) info)
      | none => m)
    m

/-- The chunk loop: each chunk answer is parsed and merged in order. -/
def mergeChunkAnswers (entities : List Str) (answers : List Str) (m : ResultMap) : ResultMap :=
  answers.foldl (fun m answer => parseChunkAnswer answer entities m) m

/-- Step 4 of the chunked extraction (lines 1015–1020): entities missing
from the map are filled with "No information found.". -/
def fillMissing (entities : List Str) (m : ResultMap) : ResultMap :=
  entities.foldl
    (fun m entity =>
      match m entity with
      | some _ => m
      | none => mapInsert m entity noInfoFound)
    m

/-- Models the chunked `ExtractEntitiesFromPDFFile` (lines 937–1024 of the
concatenated extractor source) given the list of per-chunk answers
returned by the provider. -/
def extractEntitiesFromPDFFileChunked (entities : List Str) (answers : List Str) : ResultMap :=
  fillMissing entities (mergeChunkAnswers entities answers emptyMap)

/-- The value one entity accumulates across the chunk answers. -/
def entityChunkValue (answers : List Str) (entity : Str) : Str :=
  (answers.foldl
    (fun acc answer =>
      match parseEntityInfo answer entity with
      | some info => some (mergeVal acc info)
      | none => acc)
    none).getD noInfoFound

theorem parseChunkAnswer_frame (answer : Str) :
    ∀ (entities : List Str) (m : ResultMap) (k : Str), k ∉ entities →
      parseChunkAnswer answer entities m k = m k := by
  intro entities
  induction entities with
  | nil => intro m k _; rfl
  | cons e rest ih =>
    intro m k hk
    have hke : k ≠ e := fun h => hk (by simp [h])
    have hkr : k ∉ rest := fun h => hk (by simp [h])
    show parseChunkAnswer answer rest
      (match parseEntityInfo answer e with
        | some info => mapInsert m e (mergeVal (m e) info)
        | none => m) k = m k
    rw [ih _ k hkr]
    cases parseEntityInfo answer e with
    | some info => simp [mapInsert, hke]
    | none => rfl

theorem parseChunkAnswer_lookup (answer : Str) :
    ∀ (entities : List Str), entities.Nodup →
      ∀ (m : ResultMap) (e : Str), e ∈ entities →
        parseChunkAnswer answer entities m e =
          match parseEntityInfo answer e with
          | some info => some (mergeVal (m e) info)
          | none => m e := by
  intro entities
  induction entities with
  | nil => intro _ m e he; simp at he
  | cons x rest ih =>
    intro hnd m e he
    have hx : x ∉ rest := (List.nodup_cons.mp hnd).1
    have hndr : rest.Nodup := (List.nodup_cons.mp hnd).2
    show parseChunkAnswer answer rest
      (match parseEntityInfo answer x with
        | some info => mapInsert m x (mergeVal (m x) info)
        | none => m) e = _
    rcases List.mem_cons.mp he with he | he
    · subst he
      rw [parseChunkAnswer_frame answer rest _ e hx]
      cases parseEntityInfo answer e with
      | some info => simp [mapInsert]
      | none => rfl
    · have hne : e ≠ x := fun hh => hx (hh ▸ he)
      have harg :
          (match parseEntityInfo answer x with
            | some info => mapInsert m x (mergeVal (m x) info)
            | none => m) e = m e := by
        cases parseEntityInfo answer x with
        | some info => simp [mapInsert, hne]
        | none => rfl
      rw [ih hndr _ e he, harg]

theorem mergeChunkAnswers_lookup (entities : List Str) (hnd : entities.Nodup)
    (e : Str) (he : e ∈ entities) :
    ∀ (answers : List Str) (m : ResultMap),
      mergeChunkAnswers entities answers m e =
        answers.foldl
          (fun acc answer =>
            match parseEntityInfo answer e with
            | some info => some (mergeVal acc info)
            | none => acc)
          (m e) := by
  intro answers
  induction answers with
  | nil => intro m; rfl
  | cons a rest ih =>
    intro m
    rw [List.foldl_cons]
    show mergeChunkAnswers entities rest (parseChunkAnswer a entities m) e = _
    rw [ih (parseChunkAnswer a entities m), parseChunkAnswer_lookup a entities hnd m e he]

theorem mergeChunkAnswers_frame (entities : List Str) (k : Str) (hk : k ∉ entities) :
    ∀ (answers : List Str) (m : ResultMap),
      mergeChunkAnswers entities answers m k = m k := by
  intro answers
  induction answers with
  | nil => intro m; rfl
  | cons a rest ih =>
    intro m
    show mergeChunkAnswers entities rest (parseChunkAnswer a entities m) k = _
    rw [ih (parseChunkAnswer a entities m), parseChunkAnswer_frame a entities m k hk]

theorem fillMissing_frame :
    ∀ (entities : List Str) (m : ResultMap) (k : Str), k ∉ entities →
      fillMissing entities m k = m k := by
  intro entities
  induction entities with
  | nil => intro m k _; rfl
  | cons e rest ih =>
    intro m k hk
    have hke : k ≠ e := fun h => hk (by simp [h])
    have hkr : k ∉ rest := fun h => hk (by simp [h])
    show fillMissing rest
      (match m e with
        | some _ => m
        | none => mapInsert m e noInfoFound) k = m k
    rw [ih _ k hkr]
    cases m e with
    | some v => rfl
    | none => simp [mapInsert, hke]

theorem fillMissing_lookup :
    ∀ (entities : List Str) (m : ResultMap) (e : Str), e ∈ entities →
      fillMissing entities m e = some ((m e).getD noInfoFound) := by
  intro entities
  induction entities with
  | nil => intro m e he; simp at he
  | cons x rest ih =>
    intro m e he
    show fillMissing rest
      (match m x with
        | some _ => m
        | none => mapInsert m x noInfoFound) e = _
    by_cases her : e ∈ rest
    · rw [ih _ e her]
      rcases List.mem_cons.mp he with hex | hex
      · subst hex
        cases hme : m e with
        | some v => simp [hme]
        | none => simp [hme, mapInsert]
      · by_cases hex2 : e = x
        · subst hex2
          cases hme : m e with
          | some v => simp [hme]
          | none => simp [hme, mapInsert]
        · cases hmx : m x with
          | some v => rfl
          | none => simp [mapInsert, hex2]
    · have hex : e = x := by
        rcases List.mem_cons.mp he with h | h
        · exact h
        · exact absurd h her
      subst hex
      rw [fillMissing_frame rest _ e her]
      cases hme : m e with
      | some v => simp [hme]
      | none => simp [hme, mapInsert]

/-- C4 (amended): for a duplicate-free entity list, a completed chunked
extraction yields a map defined exactly on the requested entities; each
entity's value is the in-order fold of the chunk answers, appending with a
blank line whenever the previously stored value differs from
"No information found." (an earlier stored value equal to that string is
replaced, not appended to), and entities found in no chunk map to
"No information found.". -/
theorem extractChunked_characterization (entities answers : List Str)
    (hnd : entities.Nodup) :
    (∀ k, ((extractEntitiesFromPDFFileChunked entities answers) k).isSome ↔ k ∈ entities) ∧
    (∀ e ∈ entities, extractEntitiesFromPDFFileChunked entities answers e =
        some (entityChunkValue answers e)) ∧
    (∀ e ∈ entities, ∀ a1 a2 info1 info2,
      answers = [a1, a2] →
      parseEntityInfo a1 e = some info1 → info1 ≠ noInfoFound →
      parseEntityInfo a2 e = some info2 →
      extractEntitiesFromPDFFileChunked entities answers e =
        some (info1 ++ doubleNewline ++ info2)) := by
  have hval : ∀ e ∈ entities, extractEntitiesFromPDFFileChunked entities answers e =
      some (entityChunkValue answers e) := by
    intro e he
    unfold extractEntitiesFromPDFFileChunked
    rw [fillMissing_lookup entities _ e he,
      mergeChunkAnswers_lookup entities hnd e he answers emptyMap]
    rfl
  refine ⟨?_, hval, ?_⟩
  · intro k
    constructor
    · intro hk
      by_contra hnk
      unfold extractEntitiesFromPDFFileChunked at hk
      rw [fillMissing_frame entities _ k hnk,
        mergeChunkAnswers_frame entities k hnk answers emptyMap] at hk
      simp [emptyMap] at hk
    · intro hk
      rw [hval k hk]
      rfl
  · intro e he a1 a2 info1 info2 hans h1 hne1 h2
    subst hans
    rw [hval e he]
    unfold entityChunkValue
    simp only [List.foldl_cons, List.foldl_nil, h1, h2]
    simp [mergeVal, hne1]

/-- The chunk answers of the C4 counterexample. -/
def c4answers : List Str := [str "No information found.", str "No data"]

/-- C4 counterexample: for entity "No", the first chunk answer parses to
exactly "No information found.", the second to the non-default "No data";
the code then replaces the stored value instead of concatenating the two
values with a blank line as claimed. -/
theorem extractChunked_merge_counterexample :
    parseEntityInfo (str "No information found.") (str "No") = some noInfoFound ∧
    parseEntityInfo (str "No data") (str "No") = some (str "No data") ∧
    str "No data" ≠ noInfoFound ∧
    extractEntitiesFromPDFFileChunked [str "No"] c4answers (str "No") =
      some (str "No data") ∧
    some (str "No data") ≠
      some (noInfoFound ++ doubleNewline ++ str "No data") := by
  refine ⟨by decide, by decide, by decide, by decide, by decide⟩

/-- Witness for C4 (amended) at a concrete input. -/
theorem extractChunked_characterization_witness :
    ([str "alpha"].Nodup) ∧
    ((∀ k, ((extractEntitiesFromPDFFileChunked [str "alpha"] [str "alpha news"]) k).isSome ↔
        k ∈ [str "alpha"]) ∧
    (∀ e ∈ [str "alpha"],
      extractEntitiesFromPDFFileChunked [str "alpha"] [str "alpha news"] e =
        some (entityChunkValue [str "alpha news"] e)) ∧
    (∀ e ∈ [str "alpha"], ∀ a1 a2 info1 info2,
      [str "alpha news"] = [a1, a2] →
      parseEntityInfo a1 e = some info1 → info1 ≠ noInfoFound →
      parseEntityInfo a2 e = some info2 →
      extractEntitiesFromPDFFileChunked [str "alpha"] [str "alpha news"] e =
        some (info1 ++ doubleNewline ++ info2))) :=
  ⟨by decide, extractChunked_characterization [str "alpha"] [str "alpha news"] (by decide)⟩

/-- An email with PDF links, as consumed by the processor
(`email.EmailMessage` with `PDFURLs`); the Go `From` field is `fromAddr`
and the date is an abstract timestamp. -/
structure EmailMessage where
  subject : Str
  fromAddr : Str
  date : Nat
  pdfURLs : List Str

/-- `email.AnalysisResult`, generic in the extraction result type that the
processor stores without inspecting. -/
structure AnalysisResult (R : Type) where
  filename : Str
  emailSubject : Str
  emailFrom : Str
  emailDate : Nat
  entities : Option R
  error : Str

/-- Models `Processor.processPDFURL` from `internal/processor`: build the
per-document entry, record either the extracted entities or the error text
(`"Failed to extract entities: " + err`); a failure never propagates. -/
def processPDFURL {R : Type} (extract : Str → Except Str R) (pdfURL : Str)
    (msg : EmailMessage) : AnalysisResult R :=
  match extract pdfURL with
  | Except.error e =>
    ⟨str "statstidende.pdf", msg.subject, msg.fromAddr, msg.date, none,
      str "Failed to extract entities: " ++ e⟩
  | Except.ok ents =>
    ⟨str "statstidende.pdf", msg.subject, msg.fromAddr, msg.date, some ents, []⟩

/-- All per-document entries of one batch, in processing order. -/
def batchResults {R : Type} (extract : Str → Except Str R)
    (msgs : List EmailMessage) : List (AnalysisResult R) :=
  msgs.flatMap (fun msg => msg.pdfURLs.map (fun url => processPDFURL extract url msg))

/-- Models `Processor.ProcessEmails` from `internal/processor` over abstract
fetch/extract/send collaborators.  The second component records the report
handed to the sender (`none` when no report was sent). -/
def processEmails {R : Type} (fetch : Except Str (List EmailMessage))
    (extract : Str → Except Str R)
    (send : List (AnalysisResult R) → Except Str Unit) :
    Except Str Unit × Option (List (AnalysisResult R)) :=
  match fetch with
  | Except.error e => (Except.error (str "failed to fetch emails: " ++ e), none)
  | Except.ok msgs =>
    if msgs.length = 0 then (Except.ok (), none)
    else
      let analysisResults := batchResults extract msgs
      if analysisResults.length > 0 then
        match send analysisResults with
        | Except.error e =>
          (Except.error (str "failed to send analysis results: " ++ e), some analysisResults)
        | Except.ok _ => (Except.ok (), some analysisResults)
      else (Except.ok (), none)

/-- C9: a single document's extraction failure is non-fatal to the batch:
the run succeeds, every document of every fetched message has its entry in
the sent report, failed documents carry the error text in their entry, and
successful documents carry their extraction result. -/
theorem processEmails_failure_nonfatal {R : Type} (msgs : List EmailMessage)
    (extract : Str → Except Str R)
    (send : List (AnalysisResult R) → Except Str Unit)
    (hne : msgs ≠ [])
    (hres : batchResults extract msgs ≠ [])
    (hsend : send (batchResults extract msgs) = Except.ok ()) :
    processEmails (Except.ok msgs) extract send =
      (Except.ok (), some (batchResults extract msgs)) ∧
    (∀ msg ∈ msgs, ∀ url ∈ msg.pdfURLs,
      processPDFURL extract url msg ∈ batchResults extract msgs) ∧
    (∀ msg ∈ msgs, ∀ url ∈ msg.pdfURLs, ∀ e,
      extract url = Except.error e →
      (processPDFURL extract url msg).error =
          str "Failed to extract entities: " ++ e ∧
      (processPDFURL extract url msg).entities = none) ∧
    (∀ msg ∈ msgs, ∀ url ∈ msg.pdfURLs, ∀ r,
      extract url = Except.ok r →
      (processPDFURL extract url msg).entities = some r ∧
      (processPDFURL extract url msg).error = []) := by
  refine ⟨?_, ?_, ?_, ?_⟩
  · have hlen : ¬ msgs.length = 0 := by
      intro h
      exact hne (List.eq_nil_of_length_eq_zero h)
    have hreslen : (batchResults extract msgs).length > 0 := by
      cases hb : batchResults extract msgs with
      | nil => exact absurd hb hres
      | cons a b => simp
    simp only [processEmails, hlen, if_false, hreslen, if_true, hsend]
  · intro msg hmsg url hurl
    exact List.mem_flatMap.mpr ⟨msg, hmsg, List.mem_map.mpr ⟨url, hurl, rfl⟩⟩
  · intro msg hmsg url hurl e hext
    simp [processPDFURL, hext]
  · intro msg hmsg url hurl r hext
    simp [processPDFURL, hext]

/-- Concrete batch for the C9 witness: one email with two PDF links. -/
def c9msgs : List EmailMessage := [⟨str "s", str "f", 0, [str "u1", str "u2"]⟩]

/-- Concrete extractor for the C9 witness: fails on the first link. -/
def c9extract : Str → Except Str Nat :=
  fun url => if url = str "u1" then Except.error (str "boom") else Except.ok 7

/-- Concrete sender for the C9 witness. -/
def c9send : List (AnalysisResult Nat) → Except Str Unit := fun _ => Except.ok ()

/-- Witness for C9 at a concrete batch. -/
theorem processEmails_failure_nonfatal_witness :
    (c9msgs ≠ [] ∧ batchResults c9extract c9msgs ≠ [] ∧
      c9send (batchResults c9extract c9msgs) = Except.ok ()) ∧
    (processEmails (Except.ok c9msgs) c9extract c9send =
      (Except.ok (), some (batchResults c9extract c9msgs)) ∧
    (∀ msg ∈ c9msgs, ∀ url ∈ msg.pdfURLs,
      processPDFURL c9extract url msg ∈ batchResults c9extract c9msgs) ∧
    (∀ msg ∈ c9msgs, ∀ url ∈ msg.pdfURLs, ∀ e,
      c9extract url = Except.error e →
      (processPDFURL c9extract url msg).error =
          str "Failed to extract entities: " ++ e ∧
      (processPDFURL c9extract url msg).entities = none) ∧
    (∀ msg ∈ c9msgs, ∀ url ∈ msg.pdfURLs, ∀ r,
      c9extract url = Except.ok r →
      (processPDFURL c9extract url msg).entities = some r ∧
      (processPDFURL c9extract url msg).error = [])) :=
  ⟨⟨List.cons_ne_nil _ _, List.cons_ne_nil _ _, rfl⟩,
    processEmails_failure_nonfatal c9msgs c9extract c9send
      (List.cons_ne_nil _ _) (List.cons_ne_nil _ _) rfl⟩

end Egobot
